import Mathlib

/-!
Verification of the `mynk` directory-synchronization client (`src/main.rs`)
against its design specification.

The embedding models:
* the SHA-256 content hasher (`sha256::digest`) over byte lists,
* the `FileEntry` record and the persisted state mapping,
* the reconciliation pass `compare_state_keys` and `build_state`,
* the response application `handle_response`,
* the request construction `build_post`,
* the round driver `sync_files`.

Filesystems and state mappings are modelled as association lists; the Rust
`HashMap`s are observed only through key lookup, which the association-list
model reproduces exactly on nodup-key lists.
-/

namespace Mynk

/-! ### SHA-256 (model of the `sha256` crate's `digest`, lowercase hex output) -/

def w32 : Nat := 4294967296

def add32 (a b : Nat) : Nat := (a + b) % w32

def rotr32 (n x : Nat) : Nat := ((x >>> n) ||| (x <<< (32 - n))) % w32

def bsig0 (x : Nat) : Nat := rotr32 2 x ^^^ rotr32 13 x ^^^ rotr32 22 x

def bsig1 (x : Nat) : Nat := rotr32 6 x ^^^ rotr32 11 x ^^^ rotr32 25 x

def ssig0 (x : Nat) : Nat := rotr32 7 x ^^^ rotr32 18 x ^^^ (x >>> 3)

def ssig1 (x : Nat) : Nat := rotr32 17 x ^^^ rotr32 19 x ^^^ (x >>> 10)

def shaK : List Nat :=
  [1116352408, 1899447441, 3049323471, 3921009573,
   961987163, 1508970993, 2453635748, 2870763221,
   3624381080, 310598401, 607225278, 1426881987,
   1925078388, 2162078206, 2614888103, 3248222580,
   3835390401, 4022224774, 264347078, 604807628,
   770255983, 1249150122, 1555081692, 1996064986,
   2554220882, 2821834349, 2952996808, 3210313671,
   3336571891, 3584528711, 113926993, 338241895,
   666307205, 773529912, 1294757372, 1396182291,
   1695183700, 1986661051, 2177026350, 2456956037,
   2730485921, 2820302411, 3259730800, 3345764771,
   3516065817, 3600352804, 4094571909, 275423344,
   430227734, 506948616, 659060556, 883997877,
   958139571, 1322822218, 1537002063, 1747873779,
   1955562222, 2024104815, 2227730452, 2361852424,
   2428436474, 2756734187, 3204031479, 3329325298]

structure Hash8 where
  a : Nat
  b : Nat
  c : Nat
  d : Nat
  e : Nat
  f : Nat
  g : Nat
  h : Nat
  deriving DecidableEq

def shaInit : Hash8 :=
  ⟨1779033703, 3144134277, 1013904242, 2773480762,
   1359893119, 2600822924, 528734635, 1541459225⟩

def chS (e f g : Nat) : Nat := (e &&& f) ^^^ ((e ^^^ (w32 - 1)) &&& g)

def majS (a b c : Nat) : Nat := (a &&& b) ^^^ (a &&& c) ^^^ (b &&& c)

def compressStep (st : Hash8) (kw : Nat × Nat) : Hash8 :=
  let t1 := (st.h + bsig1 st.e + chS st.e st.f st.g + kw.1 + kw.2) % w32
  let t2 := (bsig0 st.a + majS st.a st.b st.c) % w32
  ⟨(t1 + t2) % w32, st.a, st.b, st.c, (st.d + t1) % w32, st.e, st.f, st.g⟩

def extendStep (ws : List Nat) : List Nat :=
  let n := ws.length
  ws ++ [(ssig1 (ws.getD (n - 2) 0) + ws.getD (n - 7) 0 +
          ssig0 (ws.getD (n - 15) 0) + ws.getD (n - 16) 0) % w32]

def extendWords (ws : List Nat) : Nat → List Nat
  | 0 => ws
  | k + 1 => extendWords (extendStep ws) k

def bytesToWords : List Nat → List Nat
  | b0 :: b1 :: b2 :: b3 :: rest =>
      (b0 * 16777216 + b1 * 65536 + b2 * 256 + b3) :: bytesToWords rest
  | _ => []

def wordChunks16 : List Nat → List (List Nat)
  | w0 :: w1 :: w2 :: w3 :: w4 :: w5 :: w6 :: w7 ::
    w8 :: w9 :: w10 :: w11 :: w12 :: w13 :: w14 :: w15 :: rest =>
      [w0, w1, w2, w3, w4, w5, w6, w7, w8, w9, w10, w11, w12, w13, w14, w15] ::
        wordChunks16 rest
  | _ => []

def lenBytes64 (n : Nat) : List Nat :=
  [(n >>> 56) % 256, (n >>> 48) % 256, (n >>> 40) % 256, (n >>> 32) % 256,
   (n >>> 24) % 256, (n >>> 16) % 256, (n >>> 8) % 256, n % 256]

def padMessage (bs : List Nat) : List Nat :=
  let zeros := (64 - ((bs.length + 9) % 64)) % 64
  bs ++ [128] ++ List.replicate zeros 0 ++ lenBytes64 (bs.length * 8)

def compressChunk (st : Hash8) (ws : List Nat) : Hash8 :=
  let w := extendWords ws 48
  let r := (shaK.zip w).foldl compressStep st
  ⟨add32 st.a r.a, add32 st.b r.b, add32 st.c r.c, add32 st.d r.d,
   add32 st.e r.e, add32 st.f r.f, add32 st.g r.g, add32 st.h r.h⟩

def hexDigit (n : Nat) : Char :=
  ("0123456789abcdef".toList).getD n '0'

def wordHex (w : Nat) : String :=
  String.mk ((List.range 8).map (fun i => hexDigit ((w >>> ((7 - i) * 4)) % 16)))

/-- SHA-256 of a byte list, rendered as 64 lowercase hex characters; model of
the Rust `sha256::digest` call on the file's bytes. -/
def sha256digest (bs : List Nat) : String :=
  let final := (wordChunks16 (bytesToWords (padMessage bs))).foldl compressChunk shaInit
  String.join [wordHex final.a, wordHex final.b, wordHex final.c, wordHex final.d,
               wordHex final.e, wordHex final.f, wordHex final.g, wordHex final.h]

example :
    sha256digest [] =
      "e3b0c44298fc1c149afbf4c8996fb92427ae41e4649b934ca495991b7852b855" := by
  decide

/-! ### Data model: `FileEntry` and the state mapping -/

/-- One tracked file, mirroring the Rust `FileEntry` struct
(`filename`, `hash`, `version: u64`, `action`). -/
structure FileEntry where
  filename : String
  hash : String
  version : Nat
  action : String
  deriving DecidableEq

/-- A state mapping: the contents of the persisted `.mynk-state.json` vector,
observed as a map keyed by `filename` (the Rust code collects it into a
`HashMap<String, FileEntry>` keyed the same way). -/
abbrev StateMap := List FileEntry

/-- Key lookup on the association-list model of a `HashMap`. -/
def lookupEntry (m : StateMap) (f : String) : Option FileEntry :=
  m.find? (fun e => e.filename == f)

/-- Insertion with `HashMap::insert` semantics: replace any entry for the same filename. -/
def insertEntry (m : StateMap) (e : FileEntry) : StateMap :=
  (m.filter (fun x => x.filename ≠ e.filename)) ++ [e]

/-- Removal with `HashMap::remove` semantics, keyed by filename. -/
def removeEntry (m : StateMap) (f : String) : StateMap :=
  m.filter (fun x => x.filename ≠ f)

/-- Collect a `Vec<FileEntry>` into a map keyed by filename; on duplicate
filenames the later entry wins, as with `HashMap::collect` in the Rust code. -/
def vecToMap (v : List FileEntry) : StateMap :=
  v.foldl insertEntry []

/-! ### Filesystem model -/

/-- The sync-root directory tree: relative path ↦ file bytes. -/
abbrev Fs := List (String × List Nat)

def fsRead (fs : Fs) (f : String) : Option (List Nat) :=
  (fs.find? (fun p => p.1 == f)).map Prod.snd

def fsWrite (fs : Fs) (f : String) (bs : List Nat) : Fs :=
  (fs.filter (fun p => p.1 ≠ f)) ++ [(f, bs)]

def fsRemove (fs : Fs) (f : String) : Fs :=
  fs.filter (fun p => p.1 ≠ f)

/-- UTF-8 encoding of one character. -/
def utf8Bytes (c : Char) : List Nat :=
  let n := c.toNat
  if n < 128 then [n]
  else if n < 2048 then [192 ||| (n >>> 6), 128 ||| (n &&& 63)]
  else if n < 65536 then
    [224 ||| (n >>> 12), 128 ||| ((n >>> 6) &&& 63), 128 ||| (n &&& 63)]
  else
    [240 ||| (n >>> 18), 128 ||| ((n >>> 12) &&& 63), 128 ||| ((n >>> 6) &&& 63),
     128 ||| (n &&& 63)]

/-- UTF-8 bytes of a string: what `fs::write(path, contents)` puts on disk
for a `&str`. -/
def strBytes (s : String) : List Nat :=
  s.data.flatMap utf8Bytes

/-- Paths excluded from the scan: the walk filters out anything under the
`.mynk` marker (`Path::starts_with`, whole components) and anything whose last
component is `.mynk-state.json` (`Path::ends_with`). -/
def isReserved (f : String) : Bool :=
  f == ".mynk" || f.startsWith ".mynk/" ||
  f == ".mynk-state.json" || f.endsWith "/.mynk-state.json"

/-- The scan snapshot produced by `build_state`'s walk when every file read
succeeds: every non-reserved regular file's relative path paired with the
SHA-256 of its bytes. -/
def scanFs (fs : Fs) : List (String × String) :=
  (fs.filter (fun p => !isReserved p.1)).map (fun p => (p.1, sha256digest p.2))

/-- The walk with fallible per-file reads: the walked entries (already past
`filter_map(|e| e.ok())`) carry `none` when the subsequent
`std::fs::read(entry.path()).unwrap()` would fail. The `unwrap` panic is
modelled as the whole scan returning `none`. -/
def scanWalk (walk : List (String × Option (List Nat))) : Option (List (String × String)) :=
  (walk.filter (fun p => !isReserved p.1)).mapM
    (fun p => p.2.map (fun bs => (p.1, sha256digest bs)))

/-! ### Reconciliation engine: `compare_state_keys` and `build_state` -/

/-- Per-key body of the `for filename in all_keys` loop of
`compare_state_keys`: given the tentative entry from the fresh scan and the
baseline entry, decide what the reconciled map holds for this key. The
`(Some, Some)` branch with `old.action == "delete"` is the Rust `continue`,
which leaves the tentative entry in `new_map` unmodified. -/
def reconcileEntry (newE oldE : Option FileEntry) (filename : String) : Option FileEntry :=
  match newE, oldE with
  | some n, none => some { n with action := "create" }
  | none, some o =>
      if o.action = "delete" then none
      else some ⟨filename, o.hash, o.version, "delete"⟩
  | some n, some o =>
      if o.action = "delete" then some n
      else if o.hash ≠ n.hash then some { n with action := "edit", version := o.version + 1 }
      else some { n with action := "pass", version := o.version }
  | none, none => none

/-- Model of `compare_state_keys(new_map, old_map)`: iterate over the union of the key
sets and reconcile each key independently. The Rust loop mutates `new_map` in
place, but each iteration touches only its own key, so the resulting map is
the per-key `reconcileEntry` applied across the key union. -/
def compare_state_keys (new_map old_map : StateMap) : StateMap :=
  let keys := ((old_map.map (fun e => e.filename)) ++ (new_map.map (fun e => e.filename))).dedup
  keys.filterMap (fun f => reconcileEntry (lookupEntry new_map f) (lookupEntry old_map f) f)

/-- Step 1 of `build_state`: every scanned `(filename, hash)` becomes a
tentative entry `{filename, hash, version: 1, action: "create"}`. -/
def tentative (scan : List (String × String)) : List FileEntry :=
  scan.map (fun p => ⟨p.1, p.2, 1, "create"⟩)

/-- The state vector `build_state` writes to `.mynk-state.json`: the tentative
scan entries when the old vector is empty, otherwise the
`compare_state_keys` reconciliation of the two maps. -/
def build_state_result (old_vec : List FileEntry) (scan : List (String × String)) : StateMap :=
  if old_vec = [] then tentative scan
  else compare_state_keys (vecToMap (tentative scan)) (vecToMap old_vec)

/-! ### Response application: `handle_response` -/

/-- One response directive as `handle_response` reads it out of the JSON
object: `action` is `None` when the field is missing or not a string
(`.and_then(Value::as_str)`), `version` is `None` when missing or not a `u64`
(`.and_then(Value::as_u64)`), `contents` likewise. -/
structure Directive where
  filename : String
  action : Option String
  version : Option Nat
  contents : Option String
  deriving DecidableEq

/-- Loop body of `handle_response` for one directive: the defaulted action
(`unwrap_or("create")`) selects the delete branch or the write branch. The
write branch writes the contents' bytes, then sets the hash to `""` for empty
contents and otherwise to the SHA-256 of the bytes read back from the written
path, and upserts the entry with the defaulted version (`unwrap_or(1)`) and
action `"pass"`. -/
def applyDirective (st : StateMap) (fs : Fs) (d : Directive) : StateMap × Fs :=
  let action := d.action.getD "create"
  if action = "delete" then
    (removeEntry st d.filename, fsRemove fs d.filename)
  else
    let contents := d.contents.getD ""
    let fs2 := fsWrite fs d.filename (strBytes contents)
    let hash := if contents = "" then "" else sha256digest ((fsRead fs2 d.filename).getD [])
    (insertEntry st ⟨d.filename, hash, d.version.getD 1, "pass"⟩, fs2)

/-- Model of `handle_response` on a JSON-array response: reload the state file into a
map, fold every directive through `applyDirective`, and return the state
vector written back to `.mynk-state.json` together with the resulting
directory tree. -/
def handle_response_model (stateFileVec : List FileEntry) (fs : Fs) (ds : List Directive) :
    StateMap × Fs :=
  ds.foldl (fun p d => applyDirective p.1 p.2 d) (vecToMap stateFileVec, fs)

/-! ### Request construction: `build_post` -/

/-- One element of the outbound `files` array. -/
structure PostFile where
  filename : String
  version : Nat
  contents : String
  hash : String
  action : String
  deriving DecidableEq

/-- The `files` array of `build_post`: entries whose action is not `"pass"`,
with `contents` read from disk via `read_to_string(..).unwrap_or_default()`
(`readF` returns `none` on a read error or invalid UTF-8). -/
def build_post_files (st : List FileEntry) (readF : String → Option String) : List PostFile :=
  (st.filter (fun e => e.action ≠ "pass")).map
    (fun e => ⟨e.filename, e.version, (readF e.filename).getD "", e.hash, e.action⟩)

/-- A JSON scalar as it appears in the outbound summary objects. -/
inductive JVal where
  | str (s : String)
  | num (n : Nat)
  deriving DecidableEq

/-- One element of the outbound `summary` array, as the list of key/value
pairs the `json!` literal in `build_post` actually emits. -/
def summaryRecord (e : FileEntry) : List (String × JVal) :=
  [("filename", JVal.str e.filename), ("hash", JVal.str e.hash)]

/-- The `summary` array of `build_post`: one record per state-vector entry. -/
def build_summary (st : List FileEntry) : List (List (String × JVal)) :=
  st.map summaryRecord

/-! ### The round driver: `sync_files` -/

/-- Outcome of the network exchange in `sync_files`: a parsed JSON-array
response with a 2xx status, a non-2xx status, or a failure of the request
itself (the `?` on `send()`). -/
inductive NetResult where
  | ok (directives : List Directive)
  | badStatus
  | connFail

/-- One run of `sync_files`, observed through the persisted state file and
the directory tree. `build_state` runs (and persists its result) before the
exchange; on a connection failure the `?` returns `Err` (first component
`false`), on a non-2xx status the function logs and returns `Ok(())`, and on
success `handle_response` applies the directives. -/
def sync_files_model (old_vec : List FileEntry) (disk : Fs) (net : NetResult) :
    Bool × StateMap × Fs :=
  let s1 := build_state_result old_vec (scanFs disk)
  match net with
  | NetResult.connFail => (false, s1, disk)
  | NetResult.badStatus => (true, s1, disk)
  | NetResult.ok ds =>
      let r := handle_response_model s1 disk ds
      (true, r.1, r.2)

/-! ### Basic lemmas about the map and filesystem models -/

theorem fsRead_fsWrite_self (fs : Fs) (f : String) (bs : List Nat) :
    fsRead (fsWrite fs f bs) f = some bs := by
  unfold fsRead fsWrite
  rw [List.find?_append]
  have h1 : (fs.filter (fun p => p.1 ≠ f)).find? (fun p => p.1 == f) = none := by
    rw [List.find?_eq_none]
    intro x hx
    have hne := (List.mem_filter.mp hx).2
    simpa using hne
  rw [h1]
  simp

theorem lookupEntry_insertEntry_self (m : StateMap) (e : FileEntry) :
    lookupEntry (insertEntry m e) e.filename = some e := by
  unfold lookupEntry insertEntry
  rw [List.find?_append]
  have h1 : (m.filter (fun x => x.filename ≠ e.filename)).find?
      (fun x => x.filename == e.filename) = none := by
    rw [List.find?_eq_none]
    intro x hx
    have hne := (List.mem_filter.mp hx).2
    simpa using hne
  rw [h1]
  simp

/-- The write branch of `applyDirective`, summarized: when the defaulted
action is not `"delete"`, the directive's contents are written and the entry
is upserted with the branch's hash, the defaulted version, and `"pass"`. -/
theorem applyDirective_write (st : StateMap) (fs : Fs) (d : Directive)
    (h : d.action.getD "create" ≠ "delete") :
    applyDirective st fs d =
      (insertEntry st
        ⟨d.filename,
         (if d.contents.getD "" = "" then ""
          else sha256digest (strBytes (d.contents.getD ""))),
         d.version.getD 1, "pass"⟩,
       fsWrite fs d.filename (strBytes (d.contents.getD ""))) := by
  unfold applyDirective
  rw [if_neg h]
  simp only [fsRead_fsWrite_self, Option.getD_some]

theorem lookupEntry_filename {m : StateMap} {f : String} {e : FileEntry}
    (h : lookupEntry m f = some e) : e.filename = f := by
  have := List.find?_some h
  simpa using this

theorem lookupEntry_mem {m : StateMap} {f : String} {e : FileEntry}
    (h : lookupEntry m f = some e) : e ∈ m :=
  List.mem_of_find?_eq_some h

theorem lookupEntry_isSome_of_mem_keys {m : StateMap} {f : String}
    (h : f ∈ m.map (fun e => e.filename)) : (lookupEntry m f).isSome := by
  rcases List.mem_map.mp h with ⟨e, he, hf⟩
  unfold lookupEntry
  rw [List.find?_isSome]
  exact ⟨e, he, by simp [hf]⟩

theorem mem_keys_of_lookupEntry_some {m : StateMap} {f : String} {e : FileEntry}
    (h : lookupEntry m f = some e) : f ∈ m.map (fun x => x.filename) :=
  List.mem_map.mpr ⟨e, lookupEntry_mem h, lookupEntry_filename h⟩

theorem lookupEntry_of_mem {m : StateMap} (hm : (m.map (fun e => e.filename)).Nodup)
    {e : FileEntry} (he : e ∈ m) : lookupEntry m e.filename = some e := by
  induction m with
  | nil => cases he
  | cons a rest ih =>
      rcases List.mem_cons.mp he with rfl | hmem
      · unfold lookupEntry
        simp [List.find?]
      · have hne : a.filename ≠ e.filename := by
          intro hcontra
          have : e.filename ∈ rest.map (fun x => x.filename) :=
            List.mem_map.mpr ⟨e, hmem, rfl⟩
          rw [← hcontra] at this
          exact (List.nodup_cons.mp (by simpa using hm)).1 this
        have htail := ih (List.nodup_cons.mp (by simpa using hm)).2 hmem
        unfold lookupEntry at htail ⊢
        simp only [List.find?]
        rw [show (a.filename == e.filename) = false by simpa using hne]
        exact htail

theorem fsRead_mem {fs : Fs} {f : String} {bs : List Nat}
    (h : fsRead fs f = some bs) : (f, bs) ∈ fs := by
  unfold fsRead at h
  rcases Option.map_eq_some'.mp h with ⟨p, hp, hsnd⟩
  have hmem := List.mem_of_find?_eq_some hp
  have hfst : p.1 = f := by simpa using List.find?_some hp
  have : p = (f, bs) := Prod.ext hfst hsnd
  rwa [this] at hmem

theorem fsRead_isSome_of_mem_keys {fs : Fs} {f : String}
    (h : f ∈ fs.map Prod.fst) : (fsRead fs f).isSome := by
  rcases List.mem_map.mp h with ⟨p, hp, hf⟩
  unfold fsRead
  rw [Option.isSome_map', List.find?_isSome]
  exact ⟨p, hp, by simp [hf]⟩

theorem fsRead_of_mem {fs : Fs} (hfs : (fs.map Prod.fst).Nodup)
    {p : String × List Nat} (hp : p ∈ fs) : fsRead fs p.1 = some p.2 := by
  induction fs with
  | nil => cases hp
  | cons a rest ih =>
      rcases List.mem_cons.mp hp with rfl | hmem
      · unfold fsRead
        simp [List.find?]
      · have hne : a.1 ≠ p.1 := by
          intro hcontra
          have : p.1 ∈ rest.map Prod.fst := List.mem_map.mpr ⟨p, hmem, rfl⟩
          rw [← hcontra] at this
          exact (List.nodup_cons.mp (by simpa using hfs)).1 this
        have htail := ih (List.nodup_cons.mp (by simpa using hfs)).2 hmem
        unfold fsRead at htail ⊢
        simp only [List.find?]
        rw [show (a.1 == p.1) = false by simpa using hne]
        exact htail

theorem fsRead_fsWrite_ne (fs : Fs) {f g : String} (bs : List Nat) (h : g ≠ f) :
    fsRead (fsWrite fs f bs) g = fsRead fs g := by
  unfold fsRead fsWrite
  rw [List.find?_append]
  have hsingle : ([(f, bs)].find? (fun p => p.1 == g)) = none := by
    rw [List.find?_eq_none]
    intro x hx
    rcases List.mem_singleton.mp hx with rfl
    simpa using (Ne.symm h)
  rw [hsingle]
  have hfilter : (fs.filter (fun p => p.1 ≠ f)).find? (fun p => p.1 == g) =
      fs.find? (fun p => p.1 == g) := by
    induction fs with
    | nil => rfl
    | cons a rest ih =>
        by_cases ha : a.1 = f
        · have : a.1 ≠ g := by rw [ha]; exact fun hc => h hc.symm
          simp only [List.filter, List.find?]
          rw [show (decide (a.1 ≠ f)) = false by simpa using ha]
          rw [show (a.1 == g) = false by simpa using this]
          exact ih
        · simp only [List.filter, List.find?]
          rw [show (decide (a.1 ≠ f)) = true by simpa using ha]
          simp only [List.find?]
          cases hcase : (a.1 == g) with
          | true => rfl
          | false => exact ih
  rw [hfilter]
  cases hcase : fs.find? (fun p => p.1 == g) with
  | none => rfl
  | some p => rfl

theorem fsRead_fsRemove_ne (fs : Fs) {f g : String} (h : g ≠ f) :
    fsRead (fsRemove fs f) g = fsRead fs g := by
  unfold fsRead fsRemove
  have hfilter : (fs.filter (fun p => p.1 ≠ f)).find? (fun p => p.1 == g) =
      fs.find? (fun p => p.1 == g) := by
    induction fs with
    | nil => rfl
    | cons a rest ih =>
        by_cases ha : a.1 = f
        · have : a.1 ≠ g := by rw [ha]; exact fun hc => h hc.symm
          simp only [List.filter, List.find?]
          rw [show (decide (a.1 ≠ f)) = false by simpa using ha]
          rw [show (a.1 == g) = false by simpa using this]
          exact ih
        · simp only [List.filter, List.find?]
          rw [show (decide (a.1 ≠ f)) = true by simpa using ha]
          simp only [List.find?]
          cases hcase : (a.1 == g) with
          | true => rfl
          | false => exact ih
  rw [hfilter]

theorem mem_insertEntry {m : StateMap} {e x : FileEntry} (hx : x ∈ insertEntry m e) :
    x = e ∨ (x ∈ m ∧ x.filename ≠ e.filename) := by
  unfold insertEntry at hx
  rcases List.mem_append.mp hx with h | h
  · have := List.mem_filter.mp h
    exact Or.inr ⟨this.1, by simpa using this.2⟩
  · exact Or.inl (List.mem_singleton.mp h)

theorem nodup_keys_insertEntry {m : StateMap} (hm : (m.map (fun e => e.filename)).Nodup)
    (e : FileEntry) : ((insertEntry m e).map (fun x => x.filename)).Nodup := by
  unfold insertEntry
  rw [List.map_append, List.nodup_append]
  refine ⟨hm.sublist (List.Sublist.map _ (List.filter_sublist m)), by simp, ?_⟩
  intro a ha hb
  rcases List.mem_map.mp ha with ⟨x, hx, rfl⟩
  have hne := (List.mem_filter.mp hx).2
  have hxe : x.filename = e.filename := by simpa using hb
  exact (by simpa using hne : x.filename ≠ e.filename) hxe

theorem nodup_keys_removeEntry {m : StateMap} (hm : (m.map (fun e => e.filename)).Nodup)
    (f : String) : ((removeEntry m f).map (fun x => x.filename)).Nodup :=
  hm.sublist (List.Sublist.map _ (List.filter_sublist m))

theorem nodup_keys_fsWrite {fs : Fs} (hfs : (fs.map Prod.fst).Nodup) (f : String)
    (bs : List Nat) : ((fsWrite fs f bs).map Prod.fst).Nodup := by
  unfold fsWrite
  rw [List.map_append, List.nodup_append]
  refine ⟨hfs.sublist (List.Sublist.map _ (List.filter_sublist fs)), by simp, ?_⟩
  intro a ha hb
  rcases List.mem_map.mp ha with ⟨x, hx, rfl⟩
  have hne := (List.mem_filter.mp hx).2
  have hxe : x.1 = f := by simpa using hb
  exact (by simpa using hne : x.1 ≠ f) hxe

theorem nodup_keys_fsRemove {fs : Fs} (hfs : (fs.map Prod.fst).Nodup) (f : String) :
    ((fsRemove fs f).map Prod.fst).Nodup :=
  hfs.sublist (List.Sublist.map _ (List.filter_sublist fs))

theorem insertEntry_of_fresh {m : StateMap} {e : FileEntry}
    (h : e.filename ∉ m.map (fun x => x.filename)) : insertEntry m e = m ++ [e] := by
  unfold insertEntry
  congr 1
  rw [List.filter_eq_self]
  intro x hx
  have : x.filename ≠ e.filename := by
    intro hc
    exact h (List.mem_map.mpr ⟨x, hx, hc⟩)
  simpa using this

theorem foldl_insertEntry_append (v : StateMap) (acc : StateMap)
    (hdisj : ∀ x ∈ acc, ∀ y ∈ v, x.filename ≠ y.filename)
    (hv : (v.map (fun e => e.filename)).Nodup) :
    v.foldl insertEntry acc = acc ++ v := by
  induction v generalizing acc with
  | nil => simp
  | cons e rest ih =>
      have hfresh : e.filename ∉ acc.map (fun x => x.filename) := by
        intro hc
        rcases List.mem_map.mp hc with ⟨x, hx, hxe⟩
        exact hdisj x hx e (List.mem_cons_self e rest) hxe
      have hins : insertEntry acc e = acc ++ [e] := insertEntry_of_fresh hfresh
      have hstep : (e :: rest).foldl insertEntry acc = rest.foldl insertEntry (acc ++ [e]) := by
        simp [List.foldl_cons, hins]
      rw [hstep, ih (acc ++ [e])]
      · simp
      · intro x hx y hy
        rcases List.mem_append.mp hx with hxa | hxe
        · exact hdisj x hxa y (List.mem_cons_of_mem e hy)
        · rcases List.mem_singleton.mp hxe with rfl
          intro hc
          have hke : y.filename ∈ rest.map (fun z => z.filename) :=
            List.mem_map.mpr ⟨y, hy, rfl⟩
          rw [← hc] at hke
          exact (List.nodup_cons.mp (by simpa using hv)).1 hke
      · exact (List.nodup_cons.mp (by simpa using hv)).2

theorem vecToMap_eq_self {v : StateMap} (hv : (v.map (fun e => e.filename)).Nodup) :
    vecToMap v = v := by
  unfold vecToMap
  rw [foldl_insertEntry_append v [] (by intro x hx; cases hx) hv]
  simp

theorem reconcileEntry_lookup_filename {nm om : StateMap} {f : String} {e : FileEntry}
    (h : reconcileEntry (lookupEntry nm f) (lookupEntry om f) f = some e) :
    e.filename = f := by
  cases hn : lookupEntry nm f with
  | none =>
      cases ho : lookupEntry om f with
      | none =>
          rw [hn, ho] at h
          simp [reconcileEntry] at h
      | some o =>
          rw [hn, ho] at h
          simp only [reconcileEntry] at h
          split_ifs at h with hdel
          cases h
          rfl
  | some n =>
      have hnf : n.filename = f := lookupEntry_filename hn
      cases ho : lookupEntry om f with
      | none =>
          rw [hn, ho] at h
          simp only [reconcileEntry] at h
          cases h
          simpa using hnf
      | some o =>
          rw [hn, ho] at h
          simp only [reconcileEntry] at h
          split_ifs at h with hdel hh
          · cases h
            exact hnf
          · cases h
            simpa using hnf
          · cases h
            simpa using hnf

theorem nodup_keys_compare_state_keys (nm om : StateMap) :
    ((compare_state_keys nm om).map (fun e => e.filename)).Nodup := by
  unfold compare_state_keys
  have hkeys : (((om.map (fun e => e.filename)) ++ (nm.map (fun e => e.filename))).dedup).Nodup :=
    List.nodup_dedup _
  generalize hK : ((om.map (fun e => e.filename)) ++ (nm.map (fun e => e.filename))).dedup = K
  rw [hK] at hkeys
  clear hK
  induction K with
  | nil => simp
  | cons f rest ih =>
      simp only [List.filterMap_cons]
      cases hg : reconcileEntry (lookupEntry nm f) (lookupEntry om f) f with
      | none => exact ih (List.nodup_cons.mp hkeys).2
      | some e =>
          rw [List.map_cons, List.nodup_cons]
          refine ⟨?_, ih (List.nodup_cons.mp hkeys).2⟩
          intro hc
          rcases List.mem_map.mp hc with ⟨x, hx, hxe⟩
          rcases List.mem_filterMap.mp hx with ⟨g, hgmem, hgx⟩
          have hxg : x.filename = g := reconcileEntry_lookup_filename hgx
          have hef : e.filename = f := reconcileEntry_lookup_filename hg
          rw [hef] at hxe
          rw [hxe] at hxg
          rw [← hxg] at hgmem
          exact (List.nodup_cons.mp hkeys).1 hgmem

theorem mem_compare_state_keys {nm om : StateMap} {e : FileEntry}
    (h : e ∈ compare_state_keys nm om) :
    reconcileEntry (lookupEntry nm e.filename) (lookupEntry om e.filename) e.filename = some e := by
  unfold compare_state_keys at h
  rcases List.mem_filterMap.mp h with ⟨f, _, hgf⟩
  have := reconcileEntry_lookup_filename hgf
  rw [← this] at hgf
  exact hgf

theorem mem_keys_compare_state_keys {nm om : StateMap} {f : String}
    (hf : f ∈ ((om.map (fun e => e.filename)) ++ (nm.map (fun e => e.filename))).dedup)
    {e : FileEntry}
    (hg : reconcileEntry (lookupEntry nm f) (lookupEntry om f) f = some e) :
    f ∈ (compare_state_keys nm om).map (fun x => x.filename) := by
  unfold compare_state_keys
  refine List.mem_map.mpr ⟨e, List.mem_filterMap.mpr ⟨f, hf, hg⟩, ?_⟩
  exact reconcileEntry_lookup_filename hg

/-! ### The invariant maintained while applying a response -/

/-- Relation between the in-memory state map and the directory tree that
`handle_response` maintains directive by directive: keys are unique on both
sides, every non-reserved file on disk is tracked, and every settled (`pass`)
entry with a non-empty hash records the digest of its file's current bytes
and lives at a non-reserved path. -/
def RoundInv (st : StateMap) (fs : Fs) : Prop :=
  (st.map (fun e => e.filename)).Nodup ∧
  (fs.map Prod.fst).Nodup ∧
  (∀ p ∈ fs, isReserved p.1 = false → p.1 ∈ st.map (fun e => e.filename)) ∧
  (∀ e ∈ st, e.action = "pass" → e.hash ≠ "" →
    isReserved e.filename = false ∧
    ∃ bs, fsRead fs e.filename = some bs ∧ sha256digest bs = e.hash)

theorem RoundInv_applyDirective {st : StateMap} {fs : Fs} {d : Directive}
    (hd : isReserved d.filename = false) (hinv : RoundInv st fs) :
    RoundInv (applyDirective st fs d).1 (applyDirective st fs d).2 := by
  obtain ⟨hst, hfs, htrack, hhash⟩ := hinv
  by_cases hact : d.action.getD "create" = "delete"
  · have happ : applyDirective st fs d = (removeEntry st d.filename, fsRemove fs d.filename) := by
      unfold applyDirective
      rw [if_pos hact]
    rw [happ]
    refine ⟨nodup_keys_removeEntry hst _, nodup_keys_fsRemove hfs _, ?_, ?_⟩
    · intro p hp hres
      have hpfs : p ∈ fs := List.mem_of_mem_filter hp
      have hpne : p.1 ≠ d.filename := by
        have := (List.mem_filter.mp hp).2
        simpa using this
      have hk := htrack p hpfs hres
      rcases List.mem_map.mp hk with ⟨e, he, hef⟩
      refine List.mem_map.mpr ⟨e, ?_, hef⟩
      unfold removeEntry
      rw [List.mem_filter]
      refine ⟨he, ?_⟩
      simp only [decide_eq_true_eq]
      rw [hef]
      exact hpne
    · intro e he hpass hhne
      have hest : e ∈ st := List.mem_of_mem_filter he
      have hene : e.filename ≠ d.filename := by
        have := (List.mem_filter.mp he).2
        simpa using this
      obtain ⟨hres, bs, hrd, hdig⟩ := hhash e hest hpass hhne
      exact ⟨hres, bs, by rw [fsRead_fsRemove_ne fs hene]; exact hrd, hdig⟩
  · rw [applyDirective_write st fs d hact]
    set c := d.contents.getD "" with hc
    set E : FileEntry :=
      ⟨d.filename, (if c = "" then "" else sha256digest (strBytes c)), d.version.getD 1, "pass"⟩
      with hE
    refine ⟨nodup_keys_insertEntry hst E, nodup_keys_fsWrite hfs _ _, ?_, ?_⟩
    · intro p hp hres
      unfold fsWrite at hp
      rcases List.mem_append.mp hp with hold | hnew
      · have hpfs : p ∈ fs := List.mem_of_mem_filter hold
        have hpne : p.1 ≠ d.filename := by
          have := (List.mem_filter.mp hold).2
          simpa using this
        have hk := htrack p hpfs hres
        rcases List.mem_map.mp hk with ⟨e, he, hef⟩
        refine List.mem_map.mpr ⟨e, ?_, hef⟩
        unfold insertEntry
        rw [List.mem_append]
        left
        rw [List.mem_filter]
        refine ⟨he, ?_⟩
        simp only [decide_eq_true_eq]
        rw [hef]
        exact hpne
      · rcases List.mem_singleton.mp hnew with rfl
        refine List.mem_map.mpr ⟨E, ?_, rfl⟩
        unfold insertEntry
        rw [List.mem_append]
        right
        exact List.mem_singleton.mpr rfl
    · intro e he hpass hhne
      rcases mem_insertEntry he with rfl | ⟨hest, hene⟩
      · refine ⟨hd, strBytes c, fsRead_fsWrite_self fs d.filename _, ?_⟩
        by_cases hce : c = ""
        · exfalso
          apply hhne
          rw [hE]
          simp [hce]
        · rw [hE]
          simp [hce]
      · obtain ⟨hres, bs, hrd, hdig⟩ := hhash e hest hpass hhne
        refine ⟨hres, bs, ?_, hdig⟩
        rw [fsRead_fsWrite_ne fs _ hene]
        exact hrd

theorem RoundInv_foldl {ds : List Directive}
    (hres : ∀ d ∈ ds, isReserved d.filename = false) :
    ∀ st fs, RoundInv st fs →
      RoundInv (ds.foldl (fun p d => applyDirective p.1 p.2 d) (st, fs)).1
        (ds.foldl (fun p d => applyDirective p.1 p.2 d) (st, fs)).2 := by
  induction ds with
  | nil => intro st fs h; exact h
  | cons d rest ih =>
      intro st fs h
      have hstep := RoundInv_applyDirective (hres d (List.mem_cons_self d rest)) h
      have hrest : ∀ x ∈ rest, isReserved x.filename = false := fun x hx =>
        hres x (List.mem_cons_of_mem d hx)
      simpa [List.foldl_cons] using ih hrest _ _ hstep

/-! ### Facts about the reconciled state `build_state` persists -/

theorem keys_tentative (scan : List (String × String)) :
    (tentative scan).map (fun e => e.filename) = scan.map Prod.fst := by
  simp [tentative]

theorem keys_scanFs (fs : Fs) :
    (scanFs fs).map Prod.fst = (fs.filter (fun p => !isReserved p.1)).map Prod.fst := by
  simp [scanFs]

theorem nodup_keys_scanFs {fs : Fs} (hfs : (fs.map Prod.fst).Nodup) :
    ((scanFs fs).map Prod.fst).Nodup := by
  rw [keys_scanFs]
  exact hfs.sublist (List.Sublist.map _ (List.filter_sublist fs))

theorem mem_scanFs {fs : Fs} {p : String × String} (hp : p ∈ scanFs fs) :
    ∃ q ∈ fs, isReserved q.1 = false ∧ p = (q.1, sha256digest q.2) := by
  unfold scanFs at hp
  rcases List.mem_map.mp hp with ⟨q, hq, hpq⟩
  have hqfs : q ∈ fs := List.mem_of_mem_filter hq
  have hres : isReserved q.1 = false := by
    have := (List.mem_filter.mp hq).2
    simpa using this
  exact ⟨q, hqfs, hres, hpq.symm⟩

theorem mem_keys_scanFs {fs : Fs} {p : String × List Nat} (hp : p ∈ fs)
    (hres : isReserved p.1 = false) : p.1 ∈ (scanFs fs).map Prod.fst := by
  rw [keys_scanFs]
  refine List.mem_map.mpr ⟨p, ?_, rfl⟩
  rw [List.mem_filter]
  exact ⟨hp, by simp [hres]⟩

theorem lookup_tentative {scan : List (String × String)} {f : String} {n : FileEntry}
    (h : lookupEntry (tentative scan) f = some n) :
    n.filename = f ∧ n.action = "create" ∧ n.version = 1 ∧ (f, n.hash) ∈ scan := by
  have hnf : n.filename = f := lookupEntry_filename h
  have hmem : n ∈ tentative scan := lookupEntry_mem h
  unfold tentative at hmem
  rcases List.mem_map.mp hmem with ⟨p, hp, hpn⟩
  refine ⟨hnf, ?_, ?_, ?_⟩
  · rw [← hpn]
  · rw [← hpn]
  · have h1 : p.1 = f := by rw [← hnf, ← hpn]
    have h2 : p.2 = n.hash := by rw [← hpn]
    rw [← h1, ← h2]
    exact hp

theorem nodup_keys_build_state (old_vec : List FileEntry) {scan : List (String × String)}
    (hscan : (scan.map Prod.fst).Nodup) :
    ((build_state_result old_vec scan).map (fun e => e.filename)).Nodup := by
  unfold build_state_result
  by_cases hold : old_vec = []
  · rw [if_pos hold, keys_tentative]
    exact hscan
  · rw [if_neg hold]
    exact nodup_keys_compare_state_keys _ _

theorem scan_keys_mem_build_state (old_vec : List FileEntry) {scan : List (String × String)}
    (hscan : (scan.map Prod.fst).Nodup) {f : String} (hf : f ∈ scan.map Prod.fst) :
    f ∈ (build_state_result old_vec scan).map (fun e => e.filename) := by
  unfold build_state_result
  by_cases hold : old_vec = []
  · rw [if_pos hold, keys_tentative]
    exact hf
  · rw [if_neg hold]
    have htent : vecToMap (tentative scan) = tentative scan :=
      vecToMap_eq_self (by rw [keys_tentative]; exact hscan)
    have hkey : f ∈ (tentative scan).map (fun e => e.filename) := by
      rw [keys_tentative]
      exact hf
    have hsome := lookupEntry_isSome_of_mem_keys hkey
    rcases Option.isSome_iff_exists.mp hsome with ⟨n, hn⟩
    have hlook : lookupEntry (vecToMap (tentative scan)) f = some n := by
      rw [htent]
      exact hn
    have hrec : ∃ e, reconcileEntry (lookupEntry (vecToMap (tentative scan)) f)
        (lookupEntry (vecToMap old_vec) f) f = some e := by
      rw [hlook]
      cases ho : lookupEntry (vecToMap old_vec) f with
      | none => exact ⟨_, rfl⟩
      | some o =>
          by_cases hdel : o.action = "delete"
          · exact ⟨n, by simp [reconcileEntry, hdel]⟩
          · by_cases hh : o.hash ≠ n.hash
            · exact ⟨⟨n.filename, n.hash, o.version + 1, "edit"⟩,
                by simp [reconcileEntry, hdel, hh]⟩
            · exact ⟨⟨n.filename, n.hash, o.version, "pass"⟩,
                by simp [reconcileEntry, hdel, hh]⟩
    rcases hrec with ⟨e, he⟩
    refine mem_keys_compare_state_keys ?_ he
    rw [List.mem_dedup, List.mem_append]
    right
    rw [htent, keys_tentative]
    exact hf

theorem build_state_pass_entry {old_vec : List FileEntry} {disk : Fs}
    (hdisk : (disk.map Prod.fst).Nodup) {e : FileEntry}
    (he : e ∈ build_state_result old_vec (scanFs disk)) (hpass : e.action = "pass") :
    isReserved e.filename = false ∧
    ∃ bs, fsRead disk e.filename = some bs ∧ sha256digest bs = e.hash := by
  unfold build_state_result at he
  by_cases hold : old_vec = []
  · rw [if_pos hold] at he
    unfold tentative at he
    rcases List.mem_map.mp he with ⟨p, _, hpe⟩
    have hact : e.action = "create" := by rw [← hpe]
    rw [hact] at hpass
    exact absurd hpass (by decide)
  · rw [if_neg hold] at he
    have hrec := mem_compare_state_keys he
    have htent : vecToMap (tentative (scanFs disk)) = tentative (scanFs disk) :=
      vecToMap_eq_self (by rw [keys_tentative]; exact nodup_keys_scanFs hdisk)
    rw [htent] at hrec
    cases hn : lookupEntry (tentative (scanFs disk)) e.filename with
    | none =>
        rw [hn] at hrec
        cases ho : lookupEntry (vecToMap old_vec) e.filename with
        | none => rw [ho] at hrec; simp [reconcileEntry] at hrec
        | some o =>
            rw [ho] at hrec
            simp only [reconcileEntry] at hrec
            by_cases hdel : o.action = "delete"
            · rw [if_pos hdel] at hrec
              cases hrec
            · rw [if_neg hdel] at hrec
              injection hrec with hX
              rw [← hX] at hpass
              simp at hpass
    | some n =>
        obtain ⟨hnf, hnact, hnver, hnscan⟩ := lookup_tentative hn
        rw [hn] at hrec
        cases ho : lookupEntry (vecToMap old_vec) e.filename with
        | none =>
            rw [ho] at hrec
            simp only [reconcileEntry] at hrec
            injection hrec with hX
            rw [← hX] at hpass
            simp at hpass
        | some o =>
            rw [ho] at hrec
            simp only [reconcileEntry] at hrec
            by_cases hdel : o.action = "delete"
            · rw [if_pos hdel] at hrec
              injection hrec with hX
              rw [← hX] at hpass
              rw [hnact] at hpass
              exact absurd hpass (by decide)
            · rw [if_neg hdel] at hrec
              by_cases hh : o.hash ≠ n.hash
              · rw [if_pos hh] at hrec
                injection hrec with hX
                rw [← hX] at hpass
                simp at hpass
              · rw [if_neg hh] at hrec
                injection hrec with hX
                have heh : e.hash = n.hash := by rw [← hX]
                rcases mem_scanFs hnscan with ⟨q, hq, hres, hpq⟩
                have hq1 : q.1 = e.filename := by
                  have := congrArg Prod.fst hpq
                  simpa using this.symm
                have hq2 : sha256digest q.2 = n.hash := by
                  have := congrArg Prod.snd hpq
                  simpa using this.symm
                refine ⟨by rw [← hq1]; exact hres, q.2, ?_, ?_⟩
                · rw [← hq1]
                  exact fsRead_of_mem hdisk hq
                · rw [heh]
                  exact hq2

/-- The state/filesystem invariant holds when `handle_response` starts: the
state file then holds what `build_state` just wrote for this directory
tree. -/
theorem RoundInv_initial (old_vec : List FileEntry) (disk : Fs)
    (hdisk : (disk.map Prod.fst).Nodup) :
    RoundInv (vecToMap (build_state_result old_vec (scanFs disk))) disk := by
  have hscan : ((scanFs disk).map Prod.fst).Nodup := nodup_keys_scanFs hdisk
  have hnodup := nodup_keys_build_state old_vec hscan
  rw [vecToMap_eq_self hnodup]
  refine ⟨hnodup, hdisk, ?_, ?_⟩
  · intro p hp hres
    exact scan_keys_mem_build_state old_vec hscan (mem_keys_scanFs hp hres)
  · intro e he hpass _
    exact build_state_pass_entry hdisk he hpass

/-- Core of the idempotence argument, stated on `handle_response_model`
directly: if the state a successful round persisted is all-`pass` with
non-empty hashes, rescanning the round's directory tree and reconciling
yields only `pass` entries with the baseline's versions. -/
theorem rescan_idempotent_aux (old_vec : List FileEntry) (disk : Fs) (ds : List Directive)
    (hdisk : (disk.map Prod.fst).Nodup)
    (hresv : ∀ d ∈ ds, isReserved d.filename = false)
    (hpass : ∀ e ∈ (handle_response_model (build_state_result old_vec (scanFs disk)) disk ds).1,
      e.action = "pass" ∧ e.hash ≠ "") :
    ∀ e ∈ build_state_result
        (handle_response_model (build_state_result old_vec (scanFs disk)) disk ds).1
        (scanFs (handle_response_model (build_state_result old_vec (scanFs disk)) disk ds).2),
      e.action = "pass" ∧
      (lookupEntry (handle_response_model (build_state_result old_vec (scanFs disk)) disk ds).1
          e.filename).map FileEntry.version = some e.version := by
  have hinv : RoundInv
      (handle_response_model (build_state_result old_vec (scanFs disk)) disk ds).1
      (handle_response_model (build_state_result old_vec (scanFs disk)) disk ds).2 := by
    unfold handle_response_model
    exact RoundInv_foldl hresv _ _ (RoundInv_initial old_vec disk hdisk)
  set s2 := (handle_response_model (build_state_result old_vec (scanFs disk)) disk ds).1
    with hs2def
  set fs2 := (handle_response_model (build_state_result old_vec (scanFs disk)) disk ds).2
    with hfs2def
  obtain ⟨hs2nd, hfs2nd, htrack, hhash⟩ := hinv
  intro e he
  by_cases hS : s2 = []
  · exfalso
    have hscan_nil : scanFs fs2 = [] := by
      unfold scanFs
      rw [List.map_eq_nil_iff, List.filter_eq_nil_iff]
      intro p hp habs
      have hres : isReserved p.1 = false := by simpa using habs
      have hk := htrack p hp hres
      rw [hS] at hk
      simp at hk
    rw [hS, hscan_nil] at he
    simp [build_state_result, tentative] at he
  · unfold build_state_result at he
    rw [if_neg hS] at he
    have hrec := mem_compare_state_keys he
    have hscan2nd : ((scanFs fs2).map Prod.fst).Nodup := nodup_keys_scanFs hfs2nd
    have htent2 : vecToMap (tentative (scanFs fs2)) = tentative (scanFs fs2) :=
      vecToMap_eq_self (by rw [keys_tentative]; exact hscan2nd)
    have hvm2 : vecToMap s2 = s2 := vecToMap_eq_self hs2nd
    rw [htent2, hvm2] at hrec
    cases ho : lookupEntry s2 e.filename with
    | none =>
        exfalso
        cases hn : lookupEntry (tentative (scanFs fs2)) e.filename with
        | none =>
            rw [hn, ho] at hrec
            simp [reconcileEntry] at hrec
        | some n =>
            obtain ⟨hnf, _, _, hnscan⟩ := lookup_tentative hn
            rcases mem_scanFs hnscan with ⟨q, hq, hres, hpq⟩
            have hq1 : q.1 = e.filename := by
              have := congrArg Prod.fst hpq
              simpa using this.symm
            have hk := htrack q hq hres
            rw [hq1] at hk
            have hsome := lookupEntry_isSome_of_mem_keys hk
            rw [ho] at hsome
            simp at hsome
    | some o =>
        have homem : o ∈ s2 := lookupEntry_mem ho
        have hof : o.filename = e.filename := lookupEntry_filename ho
        obtain ⟨hoact, hohash⟩ := hpass o homem
        obtain ⟨hores, bs, hord, hodig⟩ := hhash o homem hoact hohash
        rw [hof] at hord hores
        cases hn : lookupEntry (tentative (scanFs fs2)) e.filename with
        | none =>
            exfalso
            have hmem2 : (e.filename, bs) ∈ fs2 := fsRead_mem hord
            have hkey : e.filename ∈ (scanFs fs2).map Prod.fst := mem_keys_scanFs hmem2 hores
            have hsome := lookupEntry_isSome_of_mem_keys
              (m := tentative (scanFs fs2)) (by rw [keys_tentative]; exact hkey)
            rw [hn] at hsome
            simp at hsome
        | some n =>
            obtain ⟨hnf, hnact, hnver, hnscan⟩ := lookup_tentative hn
            rcases mem_scanFs hnscan with ⟨q, hq, hres2, hpq⟩
            have hq1 : q.1 = e.filename := by
              have := congrArg Prod.fst hpq
              simpa using this.symm
            have hq2 : sha256digest q.2 = n.hash := by
              have := congrArg Prod.snd hpq
              simpa using this.symm
            have hqrd : fsRead fs2 e.filename = some q.2 := by
              rw [← hq1]
              exact fsRead_of_mem hfs2nd hq
            have hbs : bs = q.2 := by
              rw [hord] at hqrd
              injection hqrd
            have hhash_eq : o.hash = n.hash := by
              rw [← hodig, hbs, hq2]
            rw [hn, ho] at hrec
            simp only [reconcileEntry] at hrec
            rw [if_neg (by rw [hoact]; decide)] at hrec
            rw [if_neg (by simp [hhash_eq])] at hrec
            injection hrec with hX
            constructor
            · rw [← hX]
            · have hever : e.version = o.version := by rw [← hX]
              simp [hever]

/-! ### Claim theorems -/

/-- C6 counterexample: a successful round that settles `a` from a directive
with empty contents leaves an all-`pass` baseline (so the claim's precondition
holds), yet re-running Scan and Reconcile with no filesystem changes classifies
`a` as `edit` with version 2: the settled hash `""` never matches the rescan's
digest of the empty file. -/
theorem C6_empty_contents_breaks_idempotence :
    (∀ e ∈ (sync_files_model [] [] (NetResult.ok [⟨"a", some "create", some 1, some ""⟩])).2.1,
      e.action = "pass") ∧
    lookupEntry
      (build_state_result
        (sync_files_model [] [] (NetResult.ok [⟨"a", some "create", some 1, some ""⟩])).2.1
        (scanFs (sync_files_model [] [] (NetResult.ok [⟨"a", some "create", some 1, some ""⟩])).2.2))
      "a" = some ⟨"a", sha256digest [], 2, "edit"⟩ := by
  constructor
  · decide
  · decide

/-- C6 (amended): for every baseline produced by a successful sync round whose
entries are all settled to `Pass` with non-empty hashes (no directive wrote
empty contents) and whose directives target non-reserved paths, running Scan
then Reconcile again with no filesystem changes yields a mapping in which every
entry has action `Pass` and the same version as in the baseline. -/
theorem C6_rescan_idempotent (old_vec : List FileEntry) (disk : Fs) (ds : List Directive)
    (hdisk : (disk.map Prod.fst).Nodup)
    (hresv : ∀ d ∈ ds, isReserved d.filename = false)
    (hpass : ∀ e ∈ (sync_files_model old_vec disk (NetResult.ok ds)).2.1,
      e.action = "pass" ∧ e.hash ≠ "") :
    ∀ e ∈ build_state_result (sync_files_model old_vec disk (NetResult.ok ds)).2.1
        (scanFs (sync_files_model old_vec disk (NetResult.ok ds)).2.2),
      e.action = "pass" ∧
      (lookupEntry (sync_files_model old_vec disk (NetResult.ok ds)).2.1 e.filename).map
        FileEntry.version = some e.version :=
  rescan_idempotent_aux old_vec disk ds hdisk hresv hpass

/-- C6 witness: a round that writes `hi` into `a` under version 7 settles to an
all-`pass` baseline, and the rescan keeps `a` at `pass` with version 7. -/
theorem C6_rescan_witness :
    FileEntry.action ⟨"a", sha256digest (strBytes "hi"), 7, "pass"⟩ = "pass" ∧
    (lookupEntry (sync_files_model [] [("a", [104])]
        (NetResult.ok [⟨"a", some "create", some 7, some "hi"⟩])).2.1
      (FileEntry.filename ⟨"a", sha256digest (strBytes "hi"), 7, "pass"⟩)).map
        FileEntry.version =
      some (FileEntry.version ⟨"a", sha256digest (strBytes "hi"), 7, "pass"⟩) :=
  C6_rescan_idempotent [] [("a", [104])] [⟨"a", some "create", some 7, some "hi"⟩]
    (by decide) (by decide) (by decide)
    ⟨"a", sha256digest (strBytes "hi"), 7, "pass"⟩ (by decide)


/-- C1: the claim says a failed network exchange leaves the persisted baseline
unchanged, but `sync_files` calls `build_state` — which rewrites
`.mynk-state.json` with the reconciled mapping — before the exchange. With an
empty starting baseline and one file `a` on disk, a connection failure still
leaves a one-entry baseline on disk, not the original empty one. -/
theorem C1_failed_round_rewrites_baseline :
    (sync_files_model [] [("a", [104])] NetResult.connFail).1 = false ∧
    (sync_files_model [] [("a", [104])] NetResult.connFail).2.1 ≠ [] := by
  decide

/-- C2: the claim says a pending delete is never resurrected as `Create`, but
in `compare_state_keys` the `(Some, Some)` branch with `old.action == "delete"`
executes `continue`, leaving the tentative scan entry — action `"create"`,
version 1 — in the reconciled map. With baseline `a ↦ (h1, 3, delete)` and
scan `a ↦ h2`, the output maps `a` to a `"create"` entry. -/
theorem C2_pending_delete_resurrected_as_create :
    lookupEntry (build_state_result [⟨"a", "h1", 3, "delete"⟩] [("a", "h2")]) "a" =
      some ⟨"a", "h2", 1, "create"⟩ := by
  decide

/-- C3: the claim says versions never decrease across a reconciliation pass,
but the `continue` on a pending delete keeps the tentative entry with
version 1: with baseline `a ↦ (h1, 3, delete)` and an unchanged scan hash, the
pass drops `a`'s version from 3 to 1 (and changes the version with no hash
change). -/
theorem C3_version_drops_on_pending_delete :
    ((lookupEntry (build_state_result [⟨"a", "h1", 3, "delete"⟩] [("a", "h1")]) "a").map
        FileEntry.version = some 1) ∧
    ((lookupEntry (vecToMap [⟨"a", "h1", 3, "delete"⟩]) "a").map FileEntry.version = some 3) := by
  decide

/-- C4: the claim says a non-2xx response is a fatal error with no prior local
mutation, but `sync_files` merely logs the status and returns `Ok(())` (first
component `true`), and `build_state` has already rewritten the baseline before
the request was sent (the state file is no longer the empty starting
baseline). -/
theorem C4_bad_status_returns_ok_after_mutation :
    (sync_files_model [] [("a", [104])] NetResult.badStatus).1 = true ∧
    (sync_files_model [] [("a", [104])] NetResult.badStatus).2.1 ≠ [] := by
  decide

/-- C5 counterexample: the claim says each summary record carries `filename`,
`hash`, and `version`, but the `json!` literal in `build_post` emits only
`filename` and `hash`; the single record for a tracked entry has exactly those
two keys. -/
theorem C5_summary_record_lacks_version :
    (build_summary [⟨"a", "h", 1, "pass"⟩]).map (fun r => r.map Prod.fst) =
      [["filename", "hash"]] := by
  decide

/-- C5 (amended): the outbound summary contains one record per tracked entry
(including `Pass` entries), and each record carries that entry's `filename`
and `hash` fields — but no `version` field. -/
theorem C5_summary_one_record_per_entry (st : List FileEntry) :
    (build_summary st).length = st.length ∧
    ∀ e ∈ st, [("filename", JVal.str e.filename), ("hash", JVal.str e.hash)] ∈
      build_summary st := by
  constructor
  · simp [build_summary]
  · intro e he
    exact List.mem_map_of_mem _ he

/-- C5 witness: the amended statement evaluated on a one-entry state whose
entry has action `"pass"`. -/
theorem C5_summary_witness :
    (build_summary [⟨"a", "h", 2, "pass"⟩]).length = 1 ∧
    [("filename", JVal.str "a"), ("hash", JVal.str "h")] ∈
      build_summary [⟨"a", "h", 2, "pass"⟩] := by
  have h := C5_summary_one_record_per_entry [⟨"a", "h", 2, "pass"⟩]
  exact ⟨h.1, h.2 ⟨"a", "h", 2, "pass"⟩ (by decide)⟩

/-- C7 counterexample: the claim says the upserted hash is always recomputed
from the bytes written on disk, but for a directive with empty contents
`handle_response` stores the hash `""`, while the digest of the written (empty)
byte sequence is a non-empty hex string. -/
theorem C7_empty_contents_hash_not_recomputed :
    lookupEntry (applyDirective [] [] ⟨"a", some "create", some 2, some ""⟩).1 "a" =
      some ⟨"a", "", 2, "pass"⟩ ∧
    sha256digest ((fsRead (applyDirective [] [] ⟨"a", some "create", some 2, some ""⟩).2 "a").getD [])
      ≠ "" := by
  decide

/-- C7 (amended): for every directive whose action is not `delete`, applying
the response writes the directive's contents to the file path and upserts the
entry with the server-provided version and action `Pass`; the stored hash is
recomputed from the bytes written on disk when the contents are non-empty, and
is the empty string when the contents are empty. -/
theorem C7_write_branch_upserts (st : StateMap) (fs : Fs) (d : Directive)
    (h : d.action.getD "create" ≠ "delete") :
    fsRead (applyDirective st fs d).2 d.filename = some (strBytes (d.contents.getD "")) ∧
    lookupEntry (applyDirective st fs d).1 d.filename =
      some ⟨d.filename,
            (if d.contents.getD "" = "" then ""
             else sha256digest (strBytes (d.contents.getD ""))),
            d.version.getD 1, "pass"⟩ := by
  rw [applyDirective_write st fs d h]
  exact ⟨fsRead_fsWrite_self fs d.filename _, lookupEntry_insertEntry_self st _⟩

/-- C7 witness: the amended statement evaluated on a concrete `edit`
directive with non-empty contents. -/
theorem C7_write_branch_witness :
    fsRead (applyDirective [] [] ⟨"c", some "edit", some 5, some "xy"⟩).2 "c" =
      some (strBytes "xy") ∧
    lookupEntry (applyDirective [] [] ⟨"c", some "edit", some 5, some "xy"⟩).1 "c" =
      some ⟨"c",
            (if ("xy" : String) = "" then "" else sha256digest (strBytes "xy")),
            5, "pass"⟩ := by
  exact C7_write_branch_upserts [] [] ⟨"c", some "edit", some 5, some "xy"⟩ (by decide)

/-- C8: the claim says a read failure on an individual file is skipped and
never aborts the scan, but the walk in `build_state` calls
`std::fs::read(entry.path()).unwrap()`, so a file that vanishes between the
walk and the read panics the whole scan: with file `a` readable and file `b`
unreadable, the scan aborts (`none`) instead of producing a snapshot without
`b`. -/
theorem C8_read_failure_aborts_scan :
    scanWalk [("a", some [104]), ("b", none)] = none := by
  decide

/-- C9: a directive whose `action` field is missing, or is any string other
than `"delete"`, is processed by the write branch — the file is written and
the entry is settled to `Pass` — and a missing or non-integer `version` field
is recorded as version 1. -/
theorem C9_defaulted_action_and_version (st : StateMap) (fs : Fs) (d : Directive)
    (h : d.action = none ∨ ∃ s, d.action = some s ∧ s ≠ "delete") :
    fsRead (applyDirective st fs d).2 d.filename = some (strBytes (d.contents.getD "")) ∧
    (∃ e, lookupEntry (applyDirective st fs d).1 d.filename = some e ∧
      e.action = "pass" ∧ (d.version = none → e.version = 1)) := by
  have hne : d.action.getD "create" ≠ "delete" := by
    rcases h with h | ⟨s, hs, hne⟩
    · rw [h]; decide
    · rw [hs]; simpa using hne
  rw [applyDirective_write st fs d hne]
  refine ⟨fsRead_fsWrite_self fs d.filename _, ⟨_, lookupEntry_insertEntry_self st _, rfl, ?_⟩⟩
  intro hv
  rw [hv]
  rfl

/-- C9 witness: a directive with no `action` and no `version` field settles
the entry to `Pass` with version 1 and writes its contents. -/
theorem C9_defaulted_witness :
    fsRead (applyDirective [] [] ⟨"b", none, none, some "hi"⟩).2 "b" =
      some (strBytes "hi") ∧
    (∃ e, lookupEntry (applyDirective [] [] ⟨"b", none, none, some "hi"⟩).1 "b" = some e ∧
      e.action = "pass" ∧ ((none : Option Nat) = none → e.version = 1)) := by
  exact C9_defaulted_action_and_version [] [] ⟨"b", none, none, some "hi"⟩ (Or.inl rfl)

/-- C10: when building the outbound request, a non-`Pass` entry whose file
cannot be read (read error or invalid UTF-8, i.e. `read_to_string` fails) is
still included in the `files` list, with `contents` equal to the empty string;
`build_post_files` is total, so no error is raised. -/
theorem C10_unreadable_file_sent_empty (st : List FileEntry) (readF : String → Option String)
    (e : FileEntry) (he : e ∈ st) (ha : e.action ≠ "pass") (hr : readF e.filename = none) :
    (⟨e.filename, e.version, "", e.hash, e.action⟩ : PostFile) ∈ build_post_files st readF := by
  unfold build_post_files
  have hf : e ∈ st.filter (fun x => x.action ≠ "pass") := by
    rw [List.mem_filter]
    exact ⟨he, by simpa using ha⟩
  have hm := List.mem_map_of_mem
    (fun x : FileEntry =>
      (⟨x.filename, x.version, (readF x.filename).getD "", x.hash, x.action⟩ : PostFile)) hf
  simpa [hr] using hm

/-- C10 witness: a `create` entry whose read fails is included with empty
contents. -/
theorem C10_unreadable_witness :
    (⟨"a", 1, "", "h", "create"⟩ : PostFile) ∈
      build_post_files [⟨"a", "h", 1, "create"⟩] (fun _ => none) := by
  exact C10_unreadable_file_sent_empty [⟨"a", "h", 1, "create"⟩] (fun _ => none)
    ⟨"a", "h", 1, "create"⟩ (by decide) (by decide) rfl

end Mynk
